import Mathlib

/-!
Verification of the whitespace codec (whitespace-rs).

Shallow embedding of the three source files:
  - lib.rs:    constants HIGH/LOW, top-level encode and decode, DecodeError,
  - encode.rs: module-scoped encode (Encode.encode),
  - decode.rs: module-scoped decode (Decode.decode) with the narrower error type.

Strings are modelled as lists of characters, bytes as natural numbers
(hypotheses restrict them to < 256 where the Rust u8 type matters).
-/

/-- HIGH bit character of lib.rs: an ordinary space, U+0020 (represents bit 1). -/
def HIGH : Char := Char.ofNat 0x20

/-- LOW bit character of lib.rs: a zero width space, U+200B (represents bit 0). -/
def LOW : Char := Char.ofNat 0x200B

/-- Inner fold of encode in lib.rs, started from the empty buffer: the eight
characters pushed for one byte, for bit position 7 down to 0. -/
def encodeByte (byte : Nat) : List Char :=
  (List.range 8).reverse.foldl
    (fun buffer bit => buffer ++ [if byte &&& (1 <<< bit) = 0 then LOW else HIGH]) []

/-- encode of lib.rs: fold over the bytes, pushing for each byte one character
per bit, most significant bit first (LOW for 0, HIGH for any other masked value). -/
def encode (data : List Nat) : List Char :=
  data.foldl
    (fun buffer byte =>
      (List.range 8).reverse.foldl
        (fun buf bit => buf ++ [if byte &&& (1 <<< bit) = 0 then LOW else HIGH]) buffer)
    []

/-- Error type of lib.rs, two variants in source order. -/
inductive DecodeError where
  | InvalidLength (length : Nat)
  | InvalidCharacter (pos : Nat) (char : Char)
deriving DecidableEq

/-- Character-validation phase of decode in lib.rs: chars().enumerate().map(..)
collected into a Result, short-circuiting at the first character that is
neither LOW nor HIGH (LOW maps to bit 0, HIGH to bit 1, match arms in source order). -/
def scanBits : Nat → List Char → Except DecodeError (List Nat)
  | _, [] => Except.ok []
  | pos, c :: cs =>
    if c = LOW then (scanBits (pos + 1) cs).map (fun bits => 0 :: bits)
    else if c = HIGH then (scanBits (pos + 1) cs).map (fun bits => 1 :: bits)
    else Except.error (DecodeError.InvalidCharacter pos c)

/-- chunks_exact(8) of Rust: the consecutive complete groups of eight, the
remainder of fewer than eight elements being dropped. -/
def chunks8 : List Nat → List (List Nat)
  | b0 :: b1 :: b2 :: b3 :: b4 :: b5 :: b6 :: b7 :: rest =>
      [b0, b1, b2, b3, b4, b5, b6, b7] :: chunks8 rest
  | _ => []

/-- Per-chunk fold of decode: chunk.iter().rev().enumerate().fold(0, byte | bit << pos). -/
def byteOfChunk (chunk : List Nat) : Nat :=
  chunk.reverse.enum.foldl (fun byte pb => byte ||| (pb.2 <<< pb.1)) 0

/-- decode of lib.rs: validate characters (first error wins), then check that
the bit count is divisible by 8, then pack each complete chunk of 8 bits. -/
def decode (input : List Char) : Except DecodeError (List Nat) :=
  match scanBits 0 input with
  | Except.error e => Except.error e
  | Except.ok bits =>
      if bits.length % 8 ≠ 0 then
        Except.error (DecodeError.InvalidLength bits.length)
      else
        Except.ok ((chunks8 bits).map byteOfChunk)

namespace Encode

/-- encode of encode.rs: map each byte to its eight characters, most significant
bit first, and concatenate the per-byte strings. -/
def encode (input : List Nat) : List Char :=
  (input.map (fun byte =>
    (List.range 8).reverse.foldl
      (fun res pos => res ++ [if byte &&& (1 <<< pos) = 0 then LOW else HIGH]) [])).flatten

end Encode

namespace Decode

/-- Error type of decode.rs: only a position and a character, no length variant. -/
structure DecodeError where
  pos : Nat
  char : Char
deriving DecidableEq

/-- Character-validation phase of decode in decode.rs, identical scan to lib.rs
but with the narrower error type. -/
def scanBits : Nat → List Char → Except DecodeError (List Nat)
  | _, [] => Except.ok []
  | pos, c :: cs =>
    if c = LOW then (scanBits (pos + 1) cs).map (fun bits => 0 :: bits)
    else if c = HIGH then (scanBits (pos + 1) cs).map (fun bits => 1 :: bits)
    else Except.error (DecodeError.mk pos c)

/-- decode of decode.rs: validate characters, then pack the complete chunks of 8
with chunks_exact(8); there is no length check, a trailing remainder is dropped. -/
def decode (input : List Char) : Except DecodeError (List Nat) :=
  (scanBits 0 input).map (fun bits => (chunks8 bits).map byteOfChunk)

end Decode

/-- Bit extracted from a valid character, as in both scans: LOW is 0, anything
else (in context, HIGH) is 1. -/
def bitOfChar (c : Char) : Nat := if c = LOW then 0 else 1

/-- Character emitted for a bit by the encoder: LOW for 0, HIGH otherwise. -/
def charOfBit (b : Nat) : Char := if b = 0 then LOW else HIGH

/-- Bits of a byte, most significant first, as tested by the encoder. -/
def bitsOfByte (byte : Nat) : List Nat :=
  (List.range 8).reverse.map (fun bit => if byte &&& (1 <<< bit) = 0 then 0 else 1)

theorem high_ne_low : HIGH ≠ LOW := by decide

theorem encodeByte_def (byte : Nat) : encodeByte byte =
    [if byte &&& (1 <<< 7) = 0 then LOW else HIGH,
     if byte &&& (1 <<< 6) = 0 then LOW else HIGH,
     if byte &&& (1 <<< 5) = 0 then LOW else HIGH,
     if byte &&& (1 <<< 4) = 0 then LOW else HIGH,
     if byte &&& (1 <<< 3) = 0 then LOW else HIGH,
     if byte &&& (1 <<< 2) = 0 then LOW else HIGH,
     if byte &&& (1 <<< 1) = 0 then LOW else HIGH,
     if byte &&& (1 <<< 0) = 0 then LOW else HIGH] := rfl

theorem bitsOfByte_def (byte : Nat) : bitsOfByte byte =
    [if byte &&& (1 <<< 7) = 0 then 0 else 1,
     if byte &&& (1 <<< 6) = 0 then 0 else 1,
     if byte &&& (1 <<< 5) = 0 then 0 else 1,
     if byte &&& (1 <<< 4) = 0 then 0 else 1,
     if byte &&& (1 <<< 3) = 0 then 0 else 1,
     if byte &&& (1 <<< 2) = 0 then 0 else 1,
     if byte &&& (1 <<< 1) = 0 then 0 else 1,
     if byte &&& (1 <<< 0) = 0 then 0 else 1] := rfl

theorem encodeByte_length (byte : Nat) : (encodeByte byte).length = 8 := by
  rw [encodeByte_def]; rfl

theorem foldl_append_init {α β : Type} (g : β → List α) :
    ∀ (l : List β) (init : List α),
      l.foldl (fun buf x => buf ++ g x) init = init ++ l.foldl (fun buf x => buf ++ g x) [] := by
  intro l
  induction l with
  | nil => intro init; simp
  | cons x xs ih =>
    intro init
    rw [List.foldl_cons, List.foldl_cons, ih (init ++ g x), ih ([] ++ g x)]
    simp

theorem encode_step (init : List Char) (byte : Nat) :
    (List.range 8).reverse.foldl
      (fun buf bit => buf ++ [if byte &&& (1 <<< bit) = 0 then LOW else HIGH]) init
      = init ++ encodeByte byte :=
  foldl_append_init _ _ init

theorem encode_fold_aux : ∀ (data : List Nat) (init : List Char),
    data.foldl
      (fun buffer byte =>
        (List.range 8).reverse.foldl
          (fun buf bit => buf ++ [if byte &&& (1 <<< bit) = 0 then LOW else HIGH]) buffer)
      init
      = init ++ (data.map encodeByte).flatten := by
  intro data
  induction data with
  | nil => intro init; simp
  | cons b rest ih =>
    intro init
    rw [List.foldl_cons, encode_step, ih]
    simp

theorem encode_eq_flatten (data : List Nat) : encode data = (data.map encodeByte).flatten := by
  unfold encode
  rw [encode_fold_aux]
  simp

theorem encode2_eq_flatten (input : List Nat) :
    Encode.encode input = (input.map encodeByte).flatten := rfl

theorem encode_modules_agree (input : List Nat) : Encode.encode input = encode input := by
  rw [encode2_eq_flatten, encode_eq_flatten]

theorem encode_nil : encode [] = [] := rfl

theorem encode_cons (b : Nat) (rest : List Nat) :
    encode (b :: rest) = encodeByte b ++ encode rest := by
  simp [encode_eq_flatten]

theorem ite_char_valid (A : Prop) [Decidable A] :
    (if A then LOW else HIGH) = LOW ∨ (if A then LOW else HIGH) = HIGH := by
  split
  · exact Or.inl rfl
  · exact Or.inr rfl

theorem encodeByte_valid (byte : Nat) : ∀ c ∈ encodeByte byte, c = LOW ∨ c = HIGH := by
  intro c hc
  rw [encodeByte_def] at hc
  simp only [List.mem_cons, List.not_mem_nil, or_false] at hc
  rcases hc with h | h | h | h | h | h | h | h <;> (subst h; exact ite_char_valid _)

theorem bitOfChar_ite (A : Prop) [Decidable A] :
    bitOfChar (if A then LOW else HIGH) = if A then 0 else 1 := by
  split <;> simp [bitOfChar, high_ne_low]

theorem encodeByte_map_bitOfChar (byte : Nat) :
    (encodeByte byte).map bitOfChar = bitsOfByte byte := by
  rw [encodeByte_def, bitsOfByte_def]
  simp [bitOfChar_ite]

theorem scanBits_cons_low (pos : Nat) (cs : List Char) :
    scanBits pos (LOW :: cs) = (scanBits (pos + 1) cs).map (fun bits => 0 :: bits) := by
  simp [scanBits]

theorem scanBits_cons_high (pos : Nat) (cs : List Char) :
    scanBits pos (HIGH :: cs) = (scanBits (pos + 1) cs).map (fun bits => 1 :: bits) := by
  simp [scanBits, high_ne_low]

theorem scanBits_cons_bad (pos : Nat) (c : Char) (cs : List Char)
    (hL : c ≠ LOW) (hH : c ≠ HIGH) :
    scanBits pos (c :: cs) = Except.error (DecodeError.InvalidCharacter pos c) := by
  simp [scanBits, hL, hH]

theorem decodeScan_cons_low (pos : Nat) (cs : List Char) :
    Decode.scanBits pos (LOW :: cs) = (Decode.scanBits (pos + 1) cs).map (fun bits => 0 :: bits) := by
  simp [Decode.scanBits]

theorem decodeScan_cons_high (pos : Nat) (cs : List Char) :
    Decode.scanBits pos (HIGH :: cs) = (Decode.scanBits (pos + 1) cs).map (fun bits => 1 :: bits) := by
  simp [Decode.scanBits, high_ne_low]

theorem decodeScan_cons_bad (pos : Nat) (c : Char) (cs : List Char)
    (hL : c ≠ LOW) (hH : c ≠ HIGH) :
    Decode.scanBits pos (c :: cs) = Except.error (Decode.DecodeError.mk pos c) := by
  simp [Decode.scanBits, hL, hH]

theorem scanBits_valid : ∀ (cs : List Char), (∀ c ∈ cs, c = LOW ∨ c = HIGH) →
    ∀ pos, scanBits pos cs = Except.ok (cs.map bitOfChar) := by
  intro cs
  induction cs with
  | nil => intro _ _; rfl
  | cons c rest ih =>
    intro h pos
    have hrest : ∀ x ∈ rest, x = LOW ∨ x = HIGH := fun x hx => h x (List.mem_cons_of_mem c hx)
    rcases h c (List.mem_cons_self c rest) with hc | hc <;> subst hc
    · simp [scanBits, ih hrest (pos + 1), bitOfChar, Except.map]
    · simp [scanBits, high_ne_low, ih hrest (pos + 1), bitOfChar, Except.map]

theorem decodeScan_valid : ∀ (cs : List Char), (∀ c ∈ cs, c = LOW ∨ c = HIGH) →
    ∀ pos, Decode.scanBits pos cs = Except.ok (cs.map bitOfChar) := by
  intro cs
  induction cs with
  | nil => intro _ _; rfl
  | cons c rest ih =>
    intro h pos
    have hrest : ∀ x ∈ rest, x = LOW ∨ x = HIGH := fun x hx => h x (List.mem_cons_of_mem c hx)
    rcases h c (List.mem_cons_self c rest) with hc | hc <;> subst hc
    · simp [Decode.scanBits, ih hrest (pos + 1), bitOfChar, Except.map]
    · simp [Decode.scanBits, high_ne_low, ih hrest (pos + 1), bitOfChar, Except.map]

theorem scanBits_invalid : ∀ (pre : List Char), (∀ x ∈ pre, x = LOW ∨ x = HIGH) →
    ∀ (c : Char), c ≠ LOW → c ≠ HIGH → ∀ (rest : List Char) (pos : Nat),
      scanBits pos (pre ++ c :: rest)
        = Except.error (DecodeError.InvalidCharacter (pos + pre.length) c) := by
  intro pre
  induction pre with
  | nil =>
    intro _ c hcL hcH rest pos
    simp [scanBits, hcL, hcH]
  | cons x xs ih =>
    intro h c hcL hcH rest pos
    have hxs : ∀ y ∈ xs, y = LOW ∨ y = HIGH := fun y hy => h y (List.mem_cons_of_mem x hy)
    rcases h x (List.mem_cons_self x xs) with hx | hx <;> subst hx
    · rw [List.cons_append, scanBits_cons_low, ih hxs c hcL hcH rest (pos + 1)]
      simp [Except.map]
      omega
    · rw [List.cons_append, scanBits_cons_high, ih hxs c hcL hcH rest (pos + 1)]
      simp [Except.map]
      omega

theorem decodeScan_invalid : ∀ (pre : List Char), (∀ x ∈ pre, x = LOW ∨ x = HIGH) →
    ∀ (c : Char), c ≠ LOW → c ≠ HIGH → ∀ (rest : List Char) (pos : Nat),
      Decode.scanBits pos (pre ++ c :: rest)
        = Except.error (Decode.DecodeError.mk (pos + pre.length) c) := by
  intro pre
  induction pre with
  | nil =>
    intro _ c hcL hcH rest pos
    simp [Decode.scanBits, hcL, hcH]
  | cons x xs ih =>
    intro h c hcL hcH rest pos
    have hxs : ∀ y ∈ xs, y = LOW ∨ y = HIGH := fun y hy => h y (List.mem_cons_of_mem x hy)
    rcases h x (List.mem_cons_self x xs) with hx | hx <;> subst hx
    · rw [List.cons_append, decodeScan_cons_low, ih hxs c hcL hcH rest (pos + 1)]
      simp [Except.map]
      omega
    · rw [List.cons_append, decodeScan_cons_high, ih hxs c hcL hcH rest (pos + 1)]
      simp [Except.map]
      omega

theorem first_invalid_split : ∀ (cs : List Char),
    (∀ c ∈ cs, c = LOW ∨ c = HIGH) ∨
    ∃ pre c rest, cs = pre ++ c :: rest ∧ (∀ x ∈ pre, x = LOW ∨ x = HIGH) ∧
      c ≠ LOW ∧ c ≠ HIGH := by
  intro cs
  induction cs with
  | nil =>
    left
    intro c hc
    cases hc
  | cons x xs ih =>
    by_cases hx : x = LOW ∨ x = HIGH
    · rcases ih with hall | ⟨pre, c, rest, heq, hpre, hcl, hch⟩
      · left
        intro c hc
        rcases List.mem_cons.mp hc with rfl | hc
        · exact hx
        · exact hall c hc
      · right
        refine ⟨x :: pre, c, rest, by rw [heq, List.cons_append], ?_, hcl, hch⟩
        intro y hy
        rcases List.mem_cons.mp hy with rfl | hy
        · exact hx
        · exact hpre y hy
    · right
      push_neg at hx
      refine ⟨[], x, xs, rfl, ?_, hx.1, hx.2⟩
      intro y hy
      cases hy

theorem chunks8_cons8 (b0 b1 b2 b3 b4 b5 b6 b7 : Nat) (rest : List Nat) :
    chunks8 (b0 :: b1 :: b2 :: b3 :: b4 :: b5 :: b6 :: b7 :: rest)
      = [b0, b1, b2, b3, b4, b5, b6, b7] :: chunks8 rest := rfl

theorem chunks8_flatten : ∀ (bits : List Nat), bits.length % 8 = 0 →
    (chunks8 bits).flatten = bits
  | [], _ => rfl
  | [_], h => by simp at h
  | [_, _], h => by simp at h
  | [_, _, _], h => by simp at h
  | [_, _, _, _], h => by simp at h
  | [_, _, _, _, _], h => by simp at h
  | [_, _, _, _, _, _], h => by simp at h
  | [_, _, _, _, _, _, _], h => by simp at h
  | b0 :: b1 :: b2 :: b3 :: b4 :: b5 :: b6 :: b7 :: rest, h => by
      have hr : rest.length % 8 = 0 := by
        simp at h
        omega
      rw [chunks8_cons8]
      simp [chunks8_flatten rest hr]

theorem chunks8_count : ∀ (bits : List Nat), (chunks8 bits).length = bits.length / 8
  | [] => rfl
  | [_] => by simp [chunks8]
  | [_, _] => by simp [chunks8]
  | [_, _, _] => by simp [chunks8]
  | [_, _, _, _] => by simp [chunks8]
  | [_, _, _, _, _] => by simp [chunks8]
  | [_, _, _, _, _, _] => by simp [chunks8]
  | [_, _, _, _, _, _, _] => by simp [chunks8]
  | b0 :: b1 :: b2 :: b3 :: b4 :: b5 :: b6 :: b7 :: rest => by
      rw [chunks8_cons8]
      simp [chunks8_count rest]
      omega

set_option maxRecDepth 8192 in
theorem byteOfChunk_bitsOfByte_fin : ∀ b : Fin 256, byteOfChunk (bitsOfByte b.val) = b.val := by
  decide

theorem byteOfChunk_bitsOfByte (b : Nat) (hb : b < 256) : byteOfChunk (bitsOfByte b) = b :=
  byteOfChunk_bitsOfByte_fin ⟨b, hb⟩

set_option maxRecDepth 8192 in
theorem encodeByte_byteOfChunk_fin :
    ∀ b0 b1 b2 b3 b4 b5 b6 b7 : Fin 2,
      encodeByte (byteOfChunk [b0.val, b1.val, b2.val, b3.val, b4.val, b5.val, b6.val, b7.val])
        = [charOfBit b0.val, charOfBit b1.val, charOfBit b2.val, charOfBit b3.val,
           charOfBit b4.val, charOfBit b5.val, charOfBit b6.val, charOfBit b7.val] := by
  decide

theorem encodeByte_byteOfChunk (b0 b1 b2 b3 b4 b5 b6 b7 : Nat)
    (h0 : b0 < 2) (h1 : b1 < 2) (h2 : b2 < 2) (h3 : b3 < 2)
    (h4 : b4 < 2) (h5 : b5 < 2) (h6 : b6 < 2) (h7 : b7 < 2) :
    encodeByte (byteOfChunk [b0, b1, b2, b3, b4, b5, b6, b7])
      = [charOfBit b0, charOfBit b1, charOfBit b2, charOfBit b3,
         charOfBit b4, charOfBit b5, charOfBit b6, charOfBit b7] :=
  encodeByte_byteOfChunk_fin ⟨b0, h0⟩ ⟨b1, h1⟩ ⟨b2, h2⟩ ⟨b3, h3⟩ ⟨b4, h4⟩ ⟨b5, h5⟩ ⟨b6, h6⟩ ⟨b7, h7⟩

theorem bitsOfByte_length (byte : Nat) : (bitsOfByte byte).length = 8 := by
  rw [bitsOfByte_def]; rfl

theorem encode_valid (data : List Nat) : ∀ c ∈ encode data, c = LOW ∨ c = HIGH := by
  intro c hc
  rw [encode_eq_flatten] at hc
  rcases List.mem_flatten.mp hc with ⟨l, hl, hcl⟩
  rcases List.mem_map.mp hl with ⟨b, _, rfl⟩
  exact encodeByte_valid b c hcl

theorem encode_map_bitOfChar (data : List Nat) :
    (encode data).map bitOfChar = (data.map bitsOfByte).flatten := by
  rw [encode_eq_flatten]
  induction data with
  | nil => rfl
  | cons b rest ih =>
    simp only [List.map_cons, List.flatten_cons, List.map_append, encodeByte_map_bitOfChar, ih]

theorem chunks8_flatten_bits : ∀ (data : List Nat),
    chunks8 ((data.map bitsOfByte).flatten) = data.map bitsOfByte := by
  intro data
  induction data with
  | nil => rfl
  | cons b rest ih =>
    rw [List.map_cons, List.flatten_cons, bitsOfByte_def]
    simp only [List.cons_append, List.nil_append]
    rw [chunks8_cons8, ← bitsOfByte_def, ih]

theorem flatten_bits_length (data : List Nat) :
    ((data.map bitsOfByte).flatten).length = 8 * data.length := by
  induction data with
  | nil => rfl
  | cons b rest ih =>
    rw [List.map_cons, List.flatten_cons, List.length_append, bitsOfByte_length, ih,
      List.length_cons]
    omega

theorem map_byteOfChunk_bits (data : List Nat) (h : ∀ b ∈ data, b < 256) :
    (data.map bitsOfByte).map byteOfChunk = data := by
  induction data with
  | nil => rfl
  | cons b rest ih =>
    have hb := h b (List.mem_cons_self b rest)
    have hrest : ∀ x ∈ rest, x < 256 := fun x hx => h x (List.mem_cons_of_mem b hx)
    simp [byteOfChunk_bitsOfByte b hb, ih hrest]

theorem encode_length_eq (data : List Nat) : (encode data).length = 8 * data.length := by
  induction data with
  | nil => rfl
  | cons b rest ih =>
    rw [encode_cons, List.length_append, encodeByte_length, ih, List.length_cons]
    omega

theorem decode_eq_ok (input : List Char) (h : ∀ c ∈ input, c = LOW ∨ c = HIGH)
    (hlen : input.length % 8 = 0) :
    decode input = Except.ok ((chunks8 (input.map bitOfChar)).map byteOfChunk) := by
  unfold decode
  rw [scanBits_valid input h 0]
  have hl : (input.map bitOfChar).length % 8 = 0 := by simpa using hlen
  simp [hl, hlen]

theorem decode_eq_invalid_length (input : List Char) (h : ∀ c ∈ input, c = LOW ∨ c = HIGH)
    (hlen : input.length % 8 ≠ 0) :
    decode input = Except.error (DecodeError.InvalidLength input.length) := by
  unfold decode
  rw [scanBits_valid input h 0]
  have hl : (input.map bitOfChar).length = input.length := by simp
  simp [hl, hlen]

theorem decode_eq_invalid_char (pre : List Char) (c : Char) (rest : List Char)
    (hpre : ∀ x ∈ pre, x = LOW ∨ x = HIGH) (hcL : c ≠ LOW) (hcH : c ≠ HIGH) :
    decode (pre ++ c :: rest) = Except.error (DecodeError.InvalidCharacter pre.length c) := by
  unfold decode
  rw [scanBits_invalid pre hpre c hcL hcH rest 0]
  simp

theorem decode2_eq_ok (input : List Char) (h : ∀ c ∈ input, c = LOW ∨ c = HIGH) :
    Decode.decode input = Except.ok ((chunks8 (input.map bitOfChar)).map byteOfChunk) := by
  unfold Decode.decode
  rw [decodeScan_valid input h 0]
  rfl

theorem decode2_eq_invalid_char (pre : List Char) (c : Char) (rest : List Char)
    (hpre : ∀ x ∈ pre, x = LOW ∨ x = HIGH) (hcL : c ≠ LOW) (hcH : c ≠ HIGH) :
    Decode.decode (pre ++ c :: rest) = Except.error (Decode.DecodeError.mk pre.length c) := by
  unfold Decode.decode
  rw [decodeScan_invalid pre hpre c hcL hcH rest 0]
  simp [Except.map]

theorem bitOfChar_lt (c : Char) : bitOfChar c < 2 := by
  unfold bitOfChar
  split <;> omega

theorem charOfBit_bitOfChar : ∀ c : Char, c = LOW ∨ c = HIGH → charOfBit (bitOfChar c) = c := by
  rintro c (rfl | rfl) <;> decide

theorem encode_decode_core : ∀ (t : List Char), (∀ c ∈ t, c = LOW ∨ c = HIGH) →
    t.length % 8 = 0 → encode ((chunks8 (t.map bitOfChar)).map byteOfChunk) = t
  | [], _, _ => rfl
  | [_], _, h => by simp at h
  | [_, _], _, h => by simp at h
  | [_, _, _], _, h => by simp at h
  | [_, _, _, _], _, h => by simp at h
  | [_, _, _, _, _], _, h => by simp at h
  | [_, _, _, _, _, _], _, h => by simp at h
  | [_, _, _, _, _, _, _], _, h => by simp at h
  | c0 :: c1 :: c2 :: c3 :: c4 :: c5 :: c6 :: c7 :: rest, hv, h => by
      have hrlen : rest.length % 8 = 0 := by
        simp at h
        omega
      have hrv : ∀ c ∈ rest, c = LOW ∨ c = HIGH := by
        intro c hc
        exact hv c (by simp [hc])
      have h0 := hv c0 (by simp)
      have h1 := hv c1 (by simp)
      have h2 := hv c2 (by simp)
      have h3 := hv c3 (by simp)
      have h4 := hv c4 (by simp)
      have h5 := hv c5 (by simp)
      have h6 := hv c6 (by simp)
      have h7 := hv c7 (by simp)
      simp only [List.map_cons]
      rw [chunks8_cons8, List.map_cons, encode_cons, encode_decode_core rest hrv hrlen]
      rw [encodeByte_byteOfChunk _ _ _ _ _ _ _ _
        (bitOfChar_lt c0) (bitOfChar_lt c1) (bitOfChar_lt c2) (bitOfChar_lt c3)
        (bitOfChar_lt c4) (bitOfChar_lt c5) (bitOfChar_lt c6) (bitOfChar_lt c7)]
      rw [charOfBit_bitOfChar c0 h0, charOfBit_bitOfChar c1 h1, charOfBit_bitOfChar c2 h2,
        charOfBit_bitOfChar c3 h3, charOfBit_bitOfChar c4 h4, charOfBit_bitOfChar c5 h5,
        charOfBit_bitOfChar c6 h6, charOfBit_bitOfChar c7 h7]
      rfl

/-- Claim C1: for every byte sequence b (bytes below 256, as in the Rust u8 type),
decoding the result of encoding b succeeds and returns b. -/
theorem decode_encode_roundtrip (data : List Nat) (h : ∀ b ∈ data, b < 256) :
    decode (encode data) = Except.ok data := by
  rw [decode_eq_ok (encode data) (encode_valid data) (by rw [encode_length_eq]; omega)]
  rw [encode_map_bitOfChar, chunks8_flatten_bits, map_byteOfChunk_bits data h]

/-- Witness for claim C1 at the concrete byte sequence 10, 2. -/
theorem decode_encode_roundtrip_witness : decode (encode [10, 2]) = Except.ok [10, 2] :=
  decode_encode_roundtrip [10, 2] (by decide)

/-- Claim C2: every character sequence made only of HIGH and LOW characters whose
length is a multiple of 8 decodes successfully, and encoding the decoded bytes
gives back the sequence. -/
theorem encode_decode_roundtrip (t : List Char) (hv : ∀ c ∈ t, c = HIGH ∨ c = LOW)
    (hlen : t.length % 8 = 0) :
    ∃ bs, decode t = Except.ok bs ∧ encode bs = t := by
  have hv2 : ∀ c ∈ t, c = LOW ∨ c = HIGH := fun c hc => (hv c hc).symm
  exact ⟨_, decode_eq_ok t hv2 hlen, encode_decode_core t hv2 hlen⟩

/-- Witness for claim C2 at a concrete valid sequence of length 8. -/
theorem encode_decode_roundtrip_witness :
    ∃ bs, decode [LOW, LOW, LOW, LOW, HIGH, LOW, HIGH, LOW] = Except.ok bs ∧
      encode bs = [LOW, LOW, LOW, LOW, HIGH, LOW, HIGH, LOW] :=
  encode_decode_roundtrip [LOW, LOW, LOW, LOW, HIGH, LOW, HIGH, LOW] (by decide) (by decide)

/-- Claim C3: the top-level decode fails on the first character outside the alphabet,
with InvalidCharacter carrying that character and its zero-based position (the
number of characters before it); the characters after it, and the input length,
play no role, so a character error always wins over a length error. -/
theorem decode_first_invalid_character (pre : List Char) (c : Char) (rest : List Char)
    (hpre : ∀ x ∈ pre, x = LOW ∨ x = HIGH) (hcL : c ≠ LOW) (hcH : c ≠ HIGH) :
    decode (pre ++ c :: rest) = Except.error (DecodeError.InvalidCharacter pre.length c) :=
  decode_eq_invalid_char pre c rest hpre hcL hcH

/-- Witness for claim C3: three valid characters, then the letter y followed by
more invalid characters; the raw length 7 is not a multiple of 8 and yet the
reported error is the invalid character at position 3. -/
theorem decode_first_invalid_character_witness :
    decode ([LOW, LOW, HIGH] ++ 'y' :: ['e', 'e', 't'])
      = Except.error (DecodeError.InvalidCharacter 3 'y') :=
  decode_first_invalid_character [LOW, LOW, HIGH] 'y' ['e', 'e', 't']
    (by decide) (by decide) (by decide)

/-- Claim C4: an input made only of HIGH and LOW characters whose length n is not a
multiple of 8 makes the top-level decode fail with InvalidLength carrying n. -/
theorem decode_invalid_length (input : List Char) (hv : ∀ c ∈ input, c = HIGH ∨ c = LOW)
    (hlen : input.length % 8 ≠ 0) :
    decode input = Except.error (DecodeError.InvalidLength input.length) :=
  decode_eq_invalid_length input (fun c hc => (hv c hc).symm) hlen

/-- Witness for claim C4: fifteen valid characters yield InvalidLength 15. -/
theorem decode_invalid_length_witness :
    decode (List.replicate 15 HIGH) = Except.error (DecodeError.InvalidLength 15) :=
  decode_invalid_length (List.replicate 15 HIGH) (by decide) (by decide)

/-- Counterexample to claim C5 as stated: on fifteen valid characters the
module-scoped decode of decode.rs does not fail at all; it succeeds with one
byte (eight one bits give 255) and drops the trailing seven bits. -/
theorem module_decode_length_counterexample :
    Decode.decode (List.replicate 15 HIGH) = Except.ok [255] := by rfl

theorem chunks8_short : ∀ (bits : List Nat), bits.length < 8 → chunks8 bits = []
  | [], _ => rfl
  | [_], _ => rfl
  | [_, _], _ => rfl
  | [_, _, _], _ => rfl
  | [_, _, _, _], _ => rfl
  | [_, _, _, _, _], _ => rfl
  | [_, _, _, _, _, _], _ => rfl
  | [_, _, _, _, _, _, _], _ => rfl
  | _ :: _ :: _ :: _ :: _ :: _ :: _ :: _ :: _, h => by
      simp at h
      omega

theorem chunks8_append : ∀ (a b : List Nat), a.length % 8 = 0 →
    chunks8 (a ++ b) = chunks8 a ++ chunks8 b
  | [], _, _ => rfl
  | [_], _, h => by simp at h
  | [_, _], _, h => by simp at h
  | [_, _, _], _, h => by simp at h
  | [_, _, _, _], _, h => by simp at h
  | [_, _, _, _, _], _, h => by simp at h
  | [_, _, _, _, _, _], _, h => by simp at h
  | [_, _, _, _, _, _, _], _, h => by simp at h
  | a0 :: a1 :: a2 :: a3 :: a4 :: a5 :: a6 :: a7 :: rest, b, h => by
      have hr : rest.length % 8 = 0 := by
        simp at h
        omega
      simp only [List.cons_append]
      rw [chunks8_cons8, chunks8_cons8, chunks8_append rest b hr, List.cons_append]

theorem encode_decoded_prefix (input : List Char) (hv : ∀ c ∈ input, c = LOW ∨ c = HIGH) :
    encode ((chunks8 (input.map bitOfChar)).map byteOfChunk)
      = input.take (8 * (input.length / 8)) := by
  obtain ⟨t, r, hsplit, htlen, hrlen⟩ :
      ∃ t r, input = t ++ r ∧ t.length = 8 * (input.length / 8) ∧ r.length < 8 := by
    refine ⟨input.take (8 * (input.length / 8)), input.drop (8 * (input.length / 8)),
      (List.take_append_drop _ _).symm, ?_, ?_⟩
    · rw [List.length_take]
      omega
    · rw [List.length_drop]
      omega
  subst hsplit
  have htmod : t.length % 8 = 0 := by omega
  have htv : ∀ c ∈ t, c = LOW ∨ c = HIGH := fun c hc => hv c (List.mem_append_left r hc)
  rw [← htlen, List.take_left, List.map_append,
    chunks8_append (t.map bitOfChar) (r.map bitOfChar) (by simpa using htmod),
    chunks8_short (r.map bitOfChar) (by simpa using hrlen), List.append_nil]
  exact encode_decode_core t htv htmod

/-- Claim C5 (amended): for every input of only HIGH and LOW characters whose
length n is not a multiple of 8, the module-scoped decode succeeds, returning
exactly the floor(n/8) bytes packed from the complete groups of eight (the
first 8 times floor(n/8) characters of the input), the trailing n mod 8 bits
being silently discarded: re-encoding the result gives exactly that prefix. -/
theorem module_decode_truncates (input : List Char) (hv : ∀ c ∈ input, c = HIGH ∨ c = LOW)
    (_hlen : input.length % 8 ≠ 0) :
    ∃ bs, Decode.decode input = Except.ok bs ∧ bs.length = input.length / 8 ∧
      encode bs = input.take (8 * (input.length / 8)) := by
  have hv2 : ∀ c ∈ input, c = LOW ∨ c = HIGH := fun c hc => (hv c hc).symm
  refine ⟨_, decode2_eq_ok input hv2, ?_, encode_decoded_prefix input hv2⟩
  rw [List.length_map, chunks8_count, List.length_map]

/-- Witness for the amended claim C5 at fifteen valid characters: one byte comes
back and its encoding is the first eight characters of the input. -/
theorem module_decode_truncates_witness :
    ∃ bs, Decode.decode (List.replicate 15 HIGH) = Except.ok bs ∧ bs.length = 1 ∧
      encode bs = List.replicate 8 HIGH :=
  module_decode_truncates (List.replicate 15 HIGH) (by decide) (by decide)

/-- Counterexample to claim C6 as stated: on fifteen valid characters the two
decode entry points disagree, the top-level one fails with InvalidLength 15
while the module-scoped one succeeds with one byte. -/
theorem decode_entry_points_counterexample :
    decode (List.replicate 15 HIGH) = Except.error (DecodeError.InvalidLength 15) ∧
    Decode.decode (List.replicate 15 HIGH) = Except.ok [255] := by
  constructor <;> rfl

/-- Claim C6 (amended): the top-level decode and the module-scoped decode agree on
successes and on invalid character errors, but are not equivalent: the top-level
decode succeeds exactly when the module-scoped decode succeeds with the same
bytes AND the length is a multiple of 8, and the two report exactly the same
InvalidCharacter errors; so they diverge precisely on all-valid inputs of length
not a multiple of 8, where only the module-scoped decode succeeds. -/
theorem decode_entry_points_agreement (input : List Char) :
    (∀ bs : List Nat, decode input = Except.ok bs ↔
        (Decode.decode input = Except.ok bs ∧ input.length % 8 = 0)) ∧
    (∀ (p : Nat) (d : Char), decode input = Except.error (DecodeError.InvalidCharacter p d) ↔
        Decode.decode input = Except.error (Decode.DecodeError.mk p d)) := by
  rcases first_invalid_split input with hall | ⟨pre, c, rest, rfl, hpre, hcl, hch⟩
  · by_cases hlen : input.length % 8 = 0
    · rw [decode_eq_ok input hall hlen, decode2_eq_ok input hall]
      constructor
      · intro bs
        constructor
        · intro hb
          have hbs : List.map byteOfChunk (chunks8 (List.map bitOfChar input)) = bs := by
            simpa using hb
          exact ⟨by rw [hbs], hlen⟩
        · intro hb
          have hbs : List.map byteOfChunk (chunks8 (List.map bitOfChar input)) = bs := by
            simpa using hb.1
          rw [hbs]
      · intro p d
        constructor
        · intro hb
          simp at hb
        · intro hb
          simp at hb
    · rw [decode_eq_invalid_length input hall hlen, decode2_eq_ok input hall]
      constructor
      · intro bs
        constructor
        · intro hb
          simp at hb
        · intro hb
          exact absurd hb.2 hlen
      · intro p d
        constructor
        · intro hb
          simp at hb
        · intro hb
          simp at hb
  · rw [decode_eq_invalid_char pre c rest hpre hcl hch,
      decode2_eq_invalid_char pre c rest hpre hcl hch]
    constructor
    · intro bs
      constructor
      · intro hb
        simp at hb
      · intro hb
        have hbad := hb.1
        simp at hbad
    · intro p d
      constructor
      · intro hb
        simp only [Except.error.injEq, DecodeError.InvalidCharacter.injEq] at hb
        obtain ⟨hp, hd⟩ := hb
        subst hp
        subst hd
        rfl
      · intro hb
        simp only [Except.error.injEq, Decode.DecodeError.mk.injEq] at hb
        obtain ⟨hp, hd⟩ := hb
        subst hp
        subst hd
        rfl

/-- Claim C7: the encoding of any byte sequence has length exactly 8 times the
number of bytes, and the encoding of the empty sequence is empty. -/
theorem encode_length_spec :
    (∀ data : List Nat, (encode data).length = 8 * data.length) ∧ encode [] = [] :=
  ⟨encode_length_eq, rfl⟩

/-- Counterexample to claim C8 as stated: reading the fixture string of the tests
with each tab as the LOW character U+200B and each plain space as the HIGH
character U+0020 does NOT give the encoding of the bytes 10, 2 (it gives its
exact bitwise complement). -/
theorem encode_literal_vector_counterexample :
    encode [10, 2] ≠ [HIGH, HIGH, HIGH, HIGH, LOW, HIGH, LOW, HIGH,
                      HIGH, HIGH, HIGH, HIGH, HIGH, HIGH, LOW, HIGH] := by
  decide

/-- Claim C8 (amended): encode of the bytes 10, 2 (both entry points) is the
16-character sequence for the bit pattern 00001010 00000010 where a 1 bit is the
HIGH space U+0020 and a 0 bit is the LOW zero width space U+200B; in the ASCII
rendering of the test fixture the tab gaps therefore stand for HIGH and the
plain spaces for LOW, the opposite of the reading in the claim. -/
theorem encode_literal_vector :
    encode [10, 2] = [LOW, LOW, LOW, LOW, HIGH, LOW, HIGH, LOW,
                      LOW, LOW, LOW, LOW, LOW, LOW, HIGH, LOW] ∧
    Encode.encode [10, 2] = [LOW, LOW, LOW, LOW, HIGH, LOW, HIGH, LOW,
                             LOW, LOW, LOW, LOW, LOW, LOW, HIGH, LOW] := by
  constructor <;> rfl

/-- Claim C9: the top-level decode is total; every input either decodes to a byte
sequence whose re-encoding is exactly the input (so nothing is truncated or zero
padded), or fails with an InvalidCharacter error, or fails with an InvalidLength
error carrying the input length. -/
theorem decode_total_classification (input : List Char) :
    (∃ bs, decode input = Except.ok bs ∧ encode bs = input) ∨
    (∃ p c, decode input = Except.error (DecodeError.InvalidCharacter p c)) ∨
    (decode input = Except.error (DecodeError.InvalidLength input.length) ∧
      input.length % 8 ≠ 0) := by
  rcases first_invalid_split input with hall | ⟨pre, c, rest, rfl, hpre, hcl, hch⟩
  · by_cases hlen : input.length % 8 = 0
    · exact Or.inl ⟨_, decode_eq_ok input hall hlen, encode_decode_core input hall hlen⟩
    · exact Or.inr (Or.inr ⟨decode_eq_invalid_length input hall hlen, hlen⟩)
  · exact Or.inr (Or.inl ⟨pre.length, c, decode_eq_invalid_char pre c rest hpre hcl hch⟩)

/-- Claim C10: every character produced by the encoder is HIGH or LOW, and as a
consequence the character-validation phase of decode never fails on encoder
output. -/
theorem encode_alphabet (data : List Nat) :
    (∀ c ∈ encode data, c = HIGH ∨ c = LOW) ∧
    ∃ bits, scanBits 0 (encode data) = Except.ok bits :=
  ⟨fun c hc => (encode_valid data c hc).symm,
    ⟨_, scanBits_valid (encode data) (encode_valid data) 0⟩⟩

/-- Witness for claim C10: the character HIGH is in the encoding of the byte 255
and is indeed in the alphabet. -/
theorem encode_alphabet_witness : HIGH = HIGH ∨ HIGH = LOW :=
  (encode_alphabet [255]).1 HIGH (by decide)
